import Mathlib

/-!
Shallow embedding of the rustfuzz program (src/main.rs): the response
classifier, the per-target retention logic of the fuzz dispatcher, the JSON
export/analyze pair, the BFS crawler, and the semaphore-gated worker
lifecycle.  HTTP transport, the `url` crate and `serde_json` are external
collaborators and appear as explicit parameters or value-level models.
-/

/-- Leading-match test on character lists: the first list read in full at
the head of the second. -/
def leadMatch : List Char → List Char → Bool
  | [], _ => true
  | _ :: _, [] => false
  | a :: as, b :: bs => a == b && leadMatch as bs

/-- Modelling Rust `str::starts_with` on the character level. -/
def sStarts (s pre : String) : Bool := leadMatch pre.data s.data

/-- Modelling Rust `str::ends_with` on the character level. -/
def sEnds (s suf : String) : Bool := leadMatch suf.data.reverse s.data.reverse

/-- Modelling Rust `str::to_lowercase` on the ASCII subset the classifier
patterns live in. -/
def lowerStr (s : String) : String := String.mk (s.data.map Char.toLower)

/-- Substring test modelling Rust `str::contains` (exact, case sensitive):
the pattern's character list occurs contiguously inside the body's. -/
def strContains (s pat : String) : Bool := decide (pat.data <:+: s.data)

/-- Split a character list at every occurrence of the separator, as Rust
`str::split` on a one-character pattern does (always at least one piece). -/
def splitSep (sep : Char) : List Char → List (List Char)
  | [] => [[]]
  | c :: cs =>
    let r := splitSep sep cs
    if c == sep then [] :: r
    else
      match r with
      | [] => [[c]]
      | h :: t => (c :: h) :: t

/-- Modelling `target.split('/').last().unwrap_or("")` from the dispatcher
(main.rs line 386): the token whose reflection is probed.  Rust `split`
always yields at least one piece, so `last()` is the final piece. -/
def lastWord (target : String) : String :=
  String.mk (((splitSep '/' target.data).getLast?).getD [])

/-- The ten error patterns of `detect_error` (main.rs lines 525-536). -/
def errorPatterns : List String :=
  ["internal server error", "exception", "traceback", "fatal", "stack trace",
   "syntax error", "sql error", "not allowed", "access denied", "unhandled"]

/-- Embedding of `detect_error` (main.rs lines 524-539).  The source builds
the regex `p1|p2|...|p10` from the patterns (all literal text, no regex
metacharacters) and runs an unanchored match on the lowercased body, which is
exactly a disjunction of substring tests. -/
def detect_error (body : String) : Bool :=
  errorPatterns.any (fun p => strContains (lowerStr body) p)

/-- Embedding of the `FuzzResult` record (main.rs lines 40-47); the `u16`
status is embedded as `Nat` (every status a response can carry fits 16 bits,
and where that bound matters it is an explicit hypothesis). -/
structure FuzzResult where
  url : String
  word : String
  status : Nat
  reflected : Bool
  error : Option String
deriving DecidableEq

/-- Embedding of the per-target body of the fuzz loop (main.rs lines
381-432).  The transport is abstracted as `net : String → Option (Nat ×
String)`: `some (status, body)` when a response settles, `none` for a
transport error (the `Err` arm of the source, which appends nothing).  The
returned list holds the records this target appends to the shared collection:
one when the status is in the matcher list, none otherwise. -/
def processTarget (statusCodes : List Nat) (net : String → Option (Nat × String))
    (target : String) : List FuzzResult :=
  match net target with
  | none => []
  | some (status, body) =>
    let word := lastWord target
    let reflected := strContains body word
    let hasError := detect_error body
    if statusCodes.contains status then
      [{ url := target, word := word, status := status, reflected := reflected,
         error := if hasError then some "Possible error detected" else none }]
    else []

/-- The results accumulated over a whole target list (completion order across
workers is nondeterministic in the source; the per-target contribution is
what the claims are about). -/
def dispatch (statusCodes : List Nat) (net : String → Option (Nat × String))
    (targets : List String) : List FuzzResult :=
  targets.foldl (fun acc t => acc ++ processTarget statusCodes net t) []

/-- JSON value tree: the level at which the `serde_json` round trip is
stated.  `to_string_pretty`/`from_str` form a faithful printer/reader pair
for this tree and are not re-modelled at the character level. -/
inductive Json where
  | null
  | bool (b : Bool)
  | num (n : Nat)
  | str (s : String)
  | arr (elems : List Json)
  | obj (fields : List (String × Json))

/-- Derived `Serialize` for `FuzzResult`: an object with the five fields in
declaration order; `Option<String>` serializes to the string or `null`. -/
def fuzzResultToJson (r : FuzzResult) : Json :=
  .obj [("url", .str r.url), ("word", .str r.word), ("status", .num r.status),
        ("reflected", .bool r.reflected),
        ("error", match r.error with | some e => .str e | none => .null)]

/-- Field lookup by name, as the derived `Deserialize` visitor resolves
struct fields. -/
def jsonField (fields : List (String × Json)) (key : String) : Option Json :=
  (fields.find? (fun f => f.1 == key)).map (fun f => f.2)

def asStr : Json → Option String
  | .str s => some s
  | _ => none

/-- A `u16` field: deserialization rejects numbers outside the type. -/
def asU16 : Json → Option Nat
  | .num n => if n < 65536 then some n else none
  | _ => none

def asBool : Json → Option Bool
  | .bool b => some b
  | _ => none

def asOptStr : Json → Option (Option String)
  | .null => some none
  | .str s => some (some s)
  | _ => none

/-- Derived `Deserialize` for `FuzzResult`: requires an object carrying all
five fields with values of the right shapes. -/
def fuzzResultFromJson (j : Json) : Option FuzzResult :=
  match j with
  | .obj fields =>
    match jsonField fields "url", jsonField fields "word", jsonField fields "status",
          jsonField fields "reflected", jsonField fields "error" with
    | some ju, some jw, some js, some jr, some je =>
      match asStr ju, asStr jw, asU16 js, asBool jr, asOptStr je with
      | some url, some word, some status, some reflected, some error =>
        some { url := url, word := word, status := status, reflected := reflected,
               error := error }
      | _, _, _, _, _ => none
    | _, _, _, _, _ => none
  | _ => none

/-- JSON export (main.rs line 442): the pretty-printed array of records. -/
def exportJson (rs : List FuzzResult) : Json := .arr (rs.map fuzzResultToJson)

/-- Sequence of fallible element decodes, failing on the first bad element,
as `serde` deserializes a `Vec`. -/
def traverseOpt {α β : Type} (f : α → Option β) : List α → Option (List β)
  | [] => some []
  | a :: l =>
    match f a, traverseOpt f l with
    | some b, some bs => some (b :: bs)
    | _, _ => none

/-- The JSON branch of `analyze_results` (main.rs lines 680-694): parse the
file as an array of `FuzzResult` records. -/
def analyzeJson (j : Json) : Option (List FuzzResult) :=
  match j with
  | .arr elems => traverseOpt fuzzResultFromJson elems
  | _ => none

/-- Host of a parsed URL, as the `url` crate distinguishes it: a registrable
domain name, or an IP address (for which `Url::domain()` returns `None`). -/
inductive UHost where
  | named (d : String)
  | addr (a : String)
deriving DecidableEq

/-- Value model of a parsed `url::Url` with the components the crawler
inspects: scheme, host, path and query. -/
structure MUrl where
  scheme : String
  host : UHost
  path : String
  query : Option String
deriving DecidableEq

/-- Model of `Url::domain()`: the host when it is a domain name, `None` when
it is an IP address. -/
def mDomain (u : MUrl) : Option String :=
  match u.host with
  | .named d => some d
  | .addr _ => none

def hostText : UHost → String
  | .named d => d
  | .addr a => a

/-- Model of `Url::as_str()`: the canonical serialization the crawler stores
in `visited` and `found`. -/
def urlStr (u : MUrl) : String :=
  u.scheme ++ "://" ++ hostText u.host ++ u.path ++
    (match u.query with | some q => "?" ++ q | none => "")

/-- Break a character list at the first occurrence of the separator: the
part before it, and the part after it when the separator occurs. -/
def breakAt (sep : Char) : List Char → List Char × Option (List Char)
  | [] => ([], none)
  | c :: cs =>
    if c == sep then ([], some cs)
    else
      let r := breakAt sep cs
      (c :: r.1, r.2)

/-- Split a path-and-query string at the first `?`. -/
def splitQuery (s : String) : String × Option String :=
  let r := breakAt '?' s.data
  (String.mk r.1, r.2.map String.mk)

/-- Hosts made only of digits and dots are IPv4 addresses. -/
def classifyHost (h : String) : UHost :=
  if h.data.all (fun c => c.isDigit || c == '.') then .addr h else .named h

def parseAbsAux (scheme : String) (rest : List Char) : Option MUrl :=
  let hp := breakAt '/' rest
  if hp.1.isEmpty then none
  else
    let pathq := '/' :: (hp.2.getD [])
    let pq := splitQuery (String.mk pathq)
    some { scheme := scheme, host := classifyHost (String.mk hp.1),
           path := pq.1, query := pq.2 }

/-- Model of `Url::parse` restricted to absolute http(s) URLs, the shapes
the concrete scenarios below use (an empty path canonicalizes to `/`, as
the `url` crate does). -/
def mParse (s : String) : Option MUrl :=
  if sStarts s "http://" then parseAbsAux "http" (s.data.drop 7)
  else if sStarts s "https://" then parseAbsAux "https" (s.data.drop 8)
  else none

/-- Model of `Url::join` for the href shapes the concrete scenarios use:
absolute http(s) URLs, and root-relative references, which keep the base
scheme and host and replace path and query.  Other reference shapes are not
needed by any scenario and resolve to `none`. -/
def mJoin (base : MUrl) (href : String) : Option MUrl :=
  match mParse href with
  | some u => some u
  | none =>
    if sStarts href "/" then
      let pq := splitQuery href
      some { base with path := pq.1, query := pq.2 }
    else none

/-- The regex character class `\s`. -/
def isWs (c : Char) : Bool :=
  c == ' ' || c == '\t' || c == '\n' || c == '\r' || c == '\x0b' || c == '\x0c'

def dropWs : List Char → List Char
  | [] => []
  | c :: cs => if isWs c then dropWs cs else c :: cs

def isQuote (c : Char) : Bool := c == '"' || c == '\''

/-- Characters admitted by the capture class `[^"'>]`. -/
def isCapChar (c : Char) : Bool := !(c == '"' || c == '\'' || c == '>')

/-- One attempt to match the href regex of main.rs line 563,
`href\s*=\s*["']([^"'>]+)["']`, at the head of the character list: on
success, the capture and the characters after the closing quote. -/
def tryHref : List Char → Option (String × List Char)
  | 'h' :: 'r' :: 'e' :: 'f' :: rest =>
    match dropWs rest with
    | '=' :: rest2 =>
      match dropWs rest2 with
      | q :: rest3 =>
        if isQuote q then
          match rest3.span isCapChar with
          | ([], _) => none
          | (cap, q2 :: rest4) => if isQuote q2 then some (String.mk cap, rest4) else none
          | (_, []) => none
        else none
      | [] => none
    | _ => none
  | _ => none

/-- Leftmost-first scan of all non-overlapping matches, as
`Regex::captures_iter` produces them: on a failed attempt advance one
character, on a success resume after the match. -/
def scanHrefs : Nat → List Char → List String
  | 0, _ => []
  | _ + 1, [] => []
  | fuel + 1, c :: cs =>
    match tryHref (c :: cs) with
    | some (cap, rest) => cap :: scanHrefs fuel rest
    | none => scanHrefs fuel cs

/-- All capture-group values of the href regex over a page body
(main.rs line 609). -/
def extractHrefs (s : String) : List String := scanHrefs s.data.length s.data

/-- The skip list for non-navigable hrefs (main.rs lines 613-618). -/
def skipHref (href : String) : Bool :=
  sStarts href "#" || sStarts href "mailto:" || sStarts href "javascript:"
    || sStarts href "tel:" || sStarts href "data:"

/-- The static-asset suffix list (main.rs lines 644-650). -/
def staticExts : List String :=
  [".jpg", ".jpeg", ".png", ".gif", ".svg", ".ico", ".css", ".js",
   ".woff", ".woff2", ".ttf", ".eot", ".pdf", ".zip"]

/-- The chained `joined_str.ends_with(...)` tests of main.rs lines 644-651;
note the source tests the whole serialized URL, not its path. -/
def isStaticAsset (s : String) : Bool := staticExts.any (fun e => sEnds s e)

/-- The domain rejection of main.rs lines 626-632: reject only when both the
joined URL and the seed have a named domain and the two differ. -/
def domainRejects (jd bd : Option String) : Bool :=
  match jd, bd with
  | some d, some b => decide (d ≠ b)
  | _, _ => false

/-- Crawl loop state: the accumulating `found` set, the `visited` set, and
the FIFO frontier of (URL, depth) pairs.  The two Rust `HashSet<String>`
values are lists kept duplicate-free by the insert-if-absent checks, so list
length is set size. -/
structure CrawlState where
  found : List String
  visited : List String
  queue : List (MUrl × Nat)

/-- Embedding of the per-href body of the crawl loop (main.rs lines
609-662): skip non-navigable hrefs, resolve, apply the domain and scheme
checks, the `visited` insert-if-absent check, and the static-asset filter;
survivors enter `found` and are queued at `depth + 1`. -/
def processHref (join : MUrl → String → Option MUrl) (bd : Option String) (bs : String)
    (pageUrl : MUrl) (depth : Nat) (st : CrawlState) (href : String) : CrawlState :=
  if skipHref href then st
  else
    match join pageUrl href with
    | none => st
    | some joined =>
      if domainRejects (mDomain joined) bd then st
      else if joined.scheme ≠ bs then st
      else if urlStr joined ∈ st.visited then st
      else if isStaticAsset (urlStr joined) then
        { st with visited := urlStr joined :: st.visited }
      else
        { found := if urlStr joined ∈ st.found then st.found else urlStr joined :: st.found,
          visited := urlStr joined :: st.visited,
          queue := st.queue ++ [(joined, depth + 1)] }

/-- Embedding of one fetch (main.rs lines 584-607 and the href loop): the
transport is `net : String → Option (String × String)` giving content type
and body of a settled response, `none` on a transport or body-read error.
Non-HTML content types contribute nothing. -/
def crawlStep (net : String → Option (String × String))
    (join : MUrl → String → Option MUrl) (bd : Option String) (bs : String)
    (pageUrl : MUrl) (depth : Nat) (st : CrawlState) : CrawlState :=
  match net (urlStr pageUrl) with
  | none => st
  | some (ctype, body) =>
    if sStarts ctype "text/html" then
      (extractHrefs body).foldl (processHref join bd bs pageUrl depth) st
    else st

/-- Embedding of the crawl loop (main.rs lines 579-663): pop the frontier
head, halt when the popped depth exceeds the depth budget or `found` has
reached the page budget, otherwise fetch and process.  `fuel` only bounds
the number of iterations modelled; every claim below holds for every fuel. -/
def crawlLoop (net : String → Option (String × String))
    (join : MUrl → String → Option MUrl) (bd : Option String) (bs : String)
    (maxDepth maxPages : Nat) : Nat → CrawlState → List String
  | 0, st => st.found
  | fuel + 1, st =>
    match st.queue with
    | [] => st.found
    | (u, d) :: rest =>
      if maxDepth < d ∨ maxPages ≤ st.found.length then st.found
      else
        crawlLoop net join bd bs maxDepth maxPages fuel
          (crawlStep net join bd bs u d { st with queue := rest })

/-- Embedding of `crawl` (main.rs lines 542-666): parse the seed (an
unparseable seed returns the empty set), seed the frontier at depth 0, mark
the seed visited, run the loop, return `found`. -/
def crawl (parse : String → Option MUrl) (net : String → Option (String × String))
    (join : MUrl → String → Option MUrl) (seedStr : String)
    (maxDepth maxPages fuel : Nat) : List String :=
  match parse seedStr with
  | none => []
  | some base =>
    crawlLoop net join (mDomain base) base.scheme maxDepth maxPages fuel
      { found := [], visited := [urlStr base], queue := [(base, 0)] }

/-- Link-level reachability: `Reach net join base u d` holds when `u` is
reachable from the seed `base` in exactly `d` href hops through pages the
transport serves as HTML.  This is the meaning of "d hops from the seed". -/
inductive Reach (net : String → Option (String × String))
    (join : MUrl → String → Option MUrl) (base : MUrl) : MUrl → Nat → Prop where
  | seed : Reach net join base base 0
  | step {u d ct body href v} : Reach net join base u d →
      net (urlStr u) = some (ct, body) →
      sStarts ct "text/html" = true →
      href ∈ extractHrefs body →
      join u href = some v →
      Reach net join base v (d + 1)

/-- Lifecycle phase of one dispatcher worker (main.rs lines 381-432): before
the semaphore acquire; holding a permit before `send`; request in flight;
response settled, permit still held; permit dropped. -/
inductive Phase where
  | idle
  | acquired
  | inFlight
  | settled
  | released
deriving DecidableEq

/-- Phases during which a worker holds one of the semaphore permits: from a
successful acquire until the RAII drop of `_permit`, which the source
reaches on every exit path of the worker body. -/
def isHolding : Phase → Bool
  | .acquired => true
  | .inFlight => true
  | .settled => true
  | _ => false

/-- Dispatch-wide state: free semaphore permits and one phase per worker. -/
structure DispatchState where
  permits : Nat
  phases : List Phase
deriving DecidableEq

def countInFlight (s : DispatchState) : Nat :=
  s.phases.countP (fun p => p == Phase.inFlight)

def countHolding (s : DispatchState) : Nat := s.phases.countP isHolding

/-- Interleaved small-step semantics of the worker pool: any worker may
advance one step of its strictly sequential lifecycle; an acquire needs a
free permit (the `p + 1` pattern) and consumes it; the release returns it. -/
inductive DStep : DispatchState → DispatchState → Prop where
  | acquire (p : Nat) (l r : List Phase) :
      DStep ⟨p + 1, l ++ Phase.idle :: r⟩ ⟨p, l ++ Phase.acquired :: r⟩
  | send (p : Nat) (l r : List Phase) :
      DStep ⟨p, l ++ Phase.acquired :: r⟩ ⟨p, l ++ Phase.inFlight :: r⟩
  | settle (p : Nat) (l r : List Phase) :
      DStep ⟨p, l ++ Phase.inFlight :: r⟩ ⟨p, l ++ Phase.settled :: r⟩
  | release (p : Nat) (l r : List Phase) :
      DStep ⟨p, l ++ Phase.settled :: r⟩ ⟨p + 1, l ++ Phase.released :: r⟩

/-- Start of a dispatch: `Semaphore::new(threads)` full, every one of the
`N` targets' workers idle. -/
def initDispatch (limit numTargets : Nat) : DispatchState :=
  ⟨limit, List.replicate numTargets Phase.idle⟩

/-- States a dispatch with concurrency limit `limit` over `numTargets`
targets can reach. -/
inductive DReach (limit numTargets : Nat) : DispatchState → Prop where
  | start : DReach limit numTargets (initDispatch limit numTargets)
  | next {s t} : DReach limit numTargets s → DStep s t → DReach limit numTargets t

/-- Concrete scenario: single page with one same-site link `/a`. -/
def seedEcom : MUrl := { scheme := "http", host := .named "e.com", path := "/", query := none }

def bodyOneLink : String := "<a href=\"/a\">x</a>"

def netOneLink (s : String) : Option (String × String) :=
  if s = "http://e.com/" then some ("text/html", bodyOneLink) else none

/-- Concrete scenario: single page with two same-site links `/a` and `/b`. -/
def bodyTwoLinks : String := "<a href=\"/a\">x</a><a href=\"/b\">y</a>"

def netTwoLinks (s : String) : Option (String × String) :=
  if s = "http://e.com/" then some ("text/html", bodyTwoLinks) else none

/-- Concrete scenario: single page whose only link is an absolute URL with an
IPv4 host on the seed's scheme. -/
def bodyIpLink : String := "<a href=\"http://1.2.3.4/x\">x</a>"

def netIpLink (s : String) : Option (String × String) :=
  if s = "http://e.com/" then some ("text/html", bodyIpLink) else none

def ipUrl : MUrl := { scheme := "http", host := .addr "1.2.3.4", path := "/x", query := none }

/-- Concrete scenario: single page whose only link has a path ending in
`.jpg` but carries a query string. -/
def bodyJpgLink : String := "<a href=\"/img.jpg?v=1\">x</a>"

def netJpgLink (s : String) : Option (String × String) :=
  if s = "http://e.com/" then some ("text/html", bodyJpgLink) else none

def jpgUrl : MUrl := { scheme := "http", host := .named "e.com", path := "/img.jpg", query := some "v=1" }

/-- Concrete transport for the dispatcher scenarios: every target answers
200 with a body in which the probed token occurs. -/
def netRefl (_ : String) : Option (Nat × String) := some (200, "token123 found")

/-- The record the dispatcher retains in the `netRefl` scenario. -/
def fuzzReflSample : FuzzResult :=
  { url := "http://x/token123", word := "token123", status := 200, reflected := true,
    error := none }

/-- Sample result list for the JSON round-trip witness. -/
def sampleResults : List FuzzResult :=
  [{ url := "http://e.com/admin", word := "admin", status := 200, reflected := true,
     error := some "Possible error detected" },
   { url := "http://e.com/login", word := "login", status := 403, reflected := false,
     error := none }]

/-- C1: a dispatched target appends exactly one FuzzResult when a response
settles with a status in the configured matcher set, and zero results
otherwise — on a non-matching status or on a transport error, regardless of
body content; the result collection is unchanged by such a target. -/
theorem fuzz_result_count (statusCodes : List Nat) (net : String → Option (Nat × String))
    (target : String) :
    (processTarget statusCodes net target).length =
      match net target with
      | some (s, _) => if statusCodes.contains s then 1 else 0
      | none => 0 := by
  unfold processTarget
  cases net target with
  | none => rfl
  | some p =>
    obtain ⟨s, body⟩ := p
    by_cases h : s ∈ statusCodes <;> simp [h]

theorem fuzz_result_count_witness :
    (processTarget [200, 403] (fun _ => none) "http://e.com/admin").length = 0 :=
  fuzz_result_count [200, 403] (fun _ => none) "http://e.com/admin"

/-- C6: `detect_error` returns true exactly when one of the ten fixed
patterns occurs as a (non word-boundary) substring of the lowercased body;
in particular it is true on "Fatal error occurred" and false on "all good". -/
theorem detect_error_spec :
    (∀ body : String, detect_error body = true ↔
        ∃ p, p ∈ errorPatterns ∧ p.data <:+: (lowerStr body).data) ∧
    detect_error "Fatal error occurred" = true ∧
    detect_error "all good" = false := by
  refine ⟨?_, by decide, by decide⟩
  intro body
  unfold detect_error strContains
  rw [List.any_eq_true]
  constructor
  · rintro ⟨p, hp, hdec⟩
    exact ⟨p, hp, of_decide_eq_true hdec⟩
  · rintro ⟨p, hp, hinf⟩
    exact ⟨p, hp, decide_eq_true hinf⟩

theorem detect_error_spec_witness : detect_error "Fatal error occurred" = true :=
  detect_error_spec.2.1

/-- C7: every record a retained target produces carries `reflected` equal to
the exact case-sensitive substring test of the probed token — the last
`/`-separated piece of the target URL — against the response body; with the
two concrete classifier examples from the spec. -/
theorem reflected_flag_spec (statusCodes : List Nat) (net : String → Option (Nat × String))
    (target : String) (s : Nat) (body : String) (h : net target = some (s, body)) :
    (∀ r ∈ processTarget statusCodes net target,
        r.reflected = strContains body (lastWord target) ∧ r.word = lastWord target) ∧
    strContains "token123 found" "token123" = true ∧
    strContains "no match" "token123" = false := by
  refine ⟨?_, by decide, by decide⟩
  intro r hr
  unfold processTarget at hr
  rw [h] at hr
  by_cases hc : s ∈ statusCodes
  · simp [hc] at hr
    subst hr
    exact ⟨rfl, rfl⟩
  · simp [hc] at hr

theorem reflected_flag_spec_witness :
    fuzzReflSample.reflected = strContains "token123 found" (lastWord "http://x/token123") ∧
    strContains "no match" "token123" = false := by
  have h := reflected_flag_spec [200] netRefl "http://x/token123" 200 "token123 found" rfl
  exact ⟨(h.1 fuzzReflSample (by decide)).1, h.2.2⟩

theorem fromJson_toJson (r : FuzzResult) (h : r.status < 65536) :
    fuzzResultFromJson (fuzzResultToJson r) = some r := by
  obtain ⟨url, word, status, reflected, error⟩ := r
  cases error <;>
    simp [fuzzResultToJson, fuzzResultFromJson, jsonField, asStr, asU16, asBool, asOptStr,
          List.find?, h]

theorem traverse_export (rs : List FuzzResult) (h : ∀ r ∈ rs, r.status < 65536) :
    traverseOpt fuzzResultFromJson (rs.map fuzzResultToJson) = some rs := by
  induction rs with
  | nil => rfl
  | cons r rs ih =>
    simp only [List.map_cons, traverseOpt]
    rw [fromJson_toJson r (h r (List.mem_cons_self r rs)),
        ih (fun x hx => h x (List.mem_cons_of_mem r hx))]

/-- C8: exporting a result list to JSON and re-loading it through the
analyze path restores every record's url, word, status, reflected and error
fields exactly, in the same order.  The `u16` bound on each status is the
range every real record satisfies by construction. -/
theorem json_roundtrip (rs : List FuzzResult) (h : ∀ r ∈ rs, r.status < 65536) :
    analyzeJson (exportJson rs) = some rs := by
  unfold analyzeJson exportJson
  exact traverse_export rs h

theorem json_roundtrip_witness : analyzeJson (exportJson sampleResults) = some sampleResults :=
  json_roundtrip sampleResults (by decide)

theorem countP_middle (f : Phase → Bool) (l r : List Phase) (x : Phase) :
    (l ++ x :: r).countP f = l.countP f + ((if f x = true then 1 else 0) + r.countP f) := by
  rw [List.countP_append, List.countP_cons]
  by_cases h : f x = true
  · simp [h]
    omega
  · simp [h]

theorem countP_replicate_zero (n : Nat) (f : Phase → Bool) (x : Phase) (hx : f x = false) :
    (List.replicate n x).countP f = 0 := by
  induction n with
  | zero => rfl
  | succ n ih => rw [List.replicate_succ, List.countP_cons]; simp [hx, ih]

/-- Permit accounting: in every reachable dispatch state, free permits plus
permits held by workers between acquire and release equal the limit. -/
theorem dreach_permit_inv (limit numTargets : Nat) (s : DispatchState)
    (h : DReach limit numTargets s) : s.permits + countHolding s = limit := by
  induction h with
  | start =>
    unfold initDispatch countHolding
    rw [countP_replicate_zero numTargets isHolding Phase.idle rfl]
    rfl
  | next _ hstep ih =>
    cases hstep <;>
      simp only [countHolding, countP_middle, isHolding] at ih ⊢ <;>
      simp at ih ⊢ <;> omega

/-- C9: in every reachable state of a dispatch with concurrency limit
`limit`, the number of simultaneously in-flight requests never exceeds
`limit`: a worker holds a permit from before sending until its request has
settled, and releases it unconditionally afterwards. -/
theorem dispatch_inflight_bound (limit numTargets : Nat) (s : DispatchState)
    (h : DReach limit numTargets s) : countInFlight s ≤ limit := by
  have hinv := dreach_permit_inv limit numTargets s h
  have hle : countInFlight s ≤ countHolding s := by
    unfold countInFlight countHolding
    apply List.countP_mono_left
    intro x _ hx
    have hx2 : x = Phase.inFlight := eq_of_beq hx
    subst hx2; rfl
  omega

theorem dispatch_inflight_bound_witness :
    countInFlight ⟨1, [Phase.inFlight, Phase.idle, Phase.idle]⟩ ≤ 2 :=
  dispatch_inflight_bound 2 3 _
    (DReach.next
      (DReach.next DReach.start (DStep.acquire 1 [] [Phase.idle, Phase.idle]))
      (DStep.send 1 [] [Phase.idle, Phase.idle]))

theorem foldl_inv {α β : Type} (f : β → α → β) (P : β → Prop) (l : List α)
    (h : ∀ b a, a ∈ l → P b → P (f b a)) (b : β) (hb : P b) : P (l.foldl f b) := by
  induction l generalizing b with
  | nil => exact hb
  | cons a l ih =>
    exact ih (fun b2 a2 ha2 => h b2 a2 (List.mem_cons_of_mem a ha2))
      (f b a) (h b a (List.mem_cons_self a l) hb)

/-- Generic loop invariant for `crawlLoop`: a predicate preserved by each
processed iteration holds of the state whose `found` the loop returns.  The
step hypothesis receives exactly the guards the loop has established when it
fetches: the popped head, its depth within budget, and `found` below the
page budget. -/
theorem crawlLoop_inv (net : String → Option (String × String))
    (join : MUrl → String → Option MUrl) (bd : Option String) (bs : String)
    (maxDepth maxPages : Nat) (P : CrawlState → Prop)
    (hstep : ∀ u d rest st, P st → st.queue = (u, d) :: rest → d ≤ maxDepth →
      st.found.length < maxPages →
      P (crawlStep net join bd bs u d { st with queue := rest })) :
    ∀ fuel st, P st →
      ∃ st2, P st2 ∧ crawlLoop net join bd bs maxDepth maxPages fuel st = st2.found := by
  intro fuel
  induction fuel with
  | zero =>
    intro st hst
    exact ⟨st, hst, rfl⟩
  | succ fuel ih =>
    intro st hst
    rcases hq : st.queue with _ | ⟨⟨u, d⟩, rest⟩
    · refine ⟨st, hst, ?_⟩
      unfold crawlLoop
      rw [hq]
    · by_cases hcond : maxDepth < d ∨ maxPages ≤ st.found.length
      · refine ⟨st, hst, ?_⟩
        unfold crawlLoop
        rw [hq]
        dsimp only
        rw [if_pos hcond]
      · have hd : d ≤ maxDepth := by omega
        have hlen : st.found.length < maxPages := by omega
        obtain ⟨st2, h2, heq⟩ := ih _ (hstep u d rest st hst hq hd hlen)
        refine ⟨st2, h2, ?_⟩
        unfold crawlLoop
        rw [hq]
        dsimp only
        rw [if_neg hcond]
        exact heq

/-- Exhaustive description of one `processHref` step: either the state is
unchanged, or the href resolved to a URL that passed the domain, scheme and
`visited` checks, and the state gained it in `visited` — and, unless its
serialization carries a static-asset suffix, also in `found` and on the
frontier at `depth + 1`. -/
theorem processHref_found_cases (join : MUrl → String → Option MUrl) (bd : Option String)
    (bs : String) (pageUrl : MUrl) (depth : Nat) (st : CrawlState) (href : String) :
    processHref join bd bs pageUrl depth st href = st ∨
    ∃ joined, join pageUrl href = some joined ∧
      joined.scheme = bs ∧
      domainRejects (mDomain joined) bd = false ∧
      urlStr joined ∉ st.visited ∧
      ((isStaticAsset (urlStr joined) = true ∧
        processHref join bd bs pageUrl depth st href =
          { st with visited := urlStr joined :: st.visited }) ∨
       (isStaticAsset (urlStr joined) = false ∧
        processHref join bd bs pageUrl depth st href =
          { found := if urlStr joined ∈ st.found then st.found
                     else urlStr joined :: st.found,
            visited := urlStr joined :: st.visited,
            queue := st.queue ++ [(joined, depth + 1)] })) := by
  unfold processHref
  split
  · exact Or.inl rfl
  · split
    · exact Or.inl rfl
    next joined hj =>
      split
      · exact Or.inl rfl
      next hdr =>
        split
        · exact Or.inl rfl
        next hsch =>
          split
          · exact Or.inl rfl
          next hvis =>
            have hb : joined.scheme = bs := not_not.mp hsch
            have hd : domainRejects (mDomain joined) bd = false :=
              Bool.not_eq_true _ ▸ Bool.of_not_eq_true hdr
            split
            next hstat =>
              exact Or.inr ⟨joined, hj, hb, hd, hvis, Or.inl ⟨hstat, rfl⟩⟩
            next hstat =>
              exact Or.inr ⟨joined, hj, hb, hd, hvis,
                Or.inr ⟨Bool.of_not_eq_true hstat, rfl⟩⟩

/-- Preservation through one fetch for predicates over `found` and
`visited` only. -/
theorem crawlStep_pres (net : String → Option (String × String))
    (join : MUrl → String → Option MUrl) (bd : Option String) (bs : String)
    (P : CrawlState → Prop)
    (hh : ∀ pageUrl depth st href, P st → P (processHref join bd bs pageUrl depth st href)) :
    ∀ u d st, P st → P (crawlStep net join bd bs u d st) := by
  intro u d st hst
  unfold crawlStep
  cases net (urlStr u) with
  | none => exact hst
  | some cb =>
    obtain ⟨ct, body⟩ := cb
    dsimp only
    by_cases hct : sStarts ct "text/html" = true
    · rw [if_pos hct]
      exact foldl_inv _ P _ (fun b a _ hb => hh u d b a hb) st hst
    · rw [if_neg hct]
      exact hst

/-- C10: the crawler never returns the seed URL itself: the seed's
serialization enters `visited` before the loop starts, and every candidate
link must pass the insert-if-absent check on `visited` before it can enter
`found`, so a link resolving to the seed URL is always skipped. -/
theorem crawl_seed_not_returned (parse : String → Option MUrl)
    (net : String → Option (String × String)) (join : MUrl → String → Option MUrl)
    (seedStr : String) (maxDepth maxPages fuel : Nat) (base : MUrl)
    (hp : parse seedStr = some base) :
    urlStr base ∉ crawl parse net join seedStr maxDepth maxPages fuel := by
  unfold crawl
  rw [hp]
  dsimp only
  have hpres : ∀ pageUrl depth st href,
      (urlStr base ∈ st.visited ∧ urlStr base ∉ st.found) →
      (urlStr base ∈ (processHref join (mDomain base) base.scheme pageUrl depth st href).visited ∧
        urlStr base ∉ (processHref join (mDomain base) base.scheme pageUrl depth st href).found) := by
    intro pageUrl depth st href hst
    rcases processHref_found_cases join (mDomain base) base.scheme pageUrl depth st href with
      heq | ⟨joined, _, _, _, hvis, hcase⟩
    · rw [heq]; exact hst
    · have hne : urlStr base ≠ urlStr joined := fun h => hvis (h ▸ hst.1)
      rcases hcase with ⟨_, heq⟩ | ⟨_, heq⟩
      · rw [heq]
        exact ⟨List.mem_cons_of_mem _ hst.1, hst.2⟩
      · rw [heq]
        refine ⟨List.mem_cons_of_mem _ hst.1, ?_⟩
        dsimp only
        split
        · exact hst.2
        · intro hmem
          rcases List.mem_cons.mp hmem with h | h
          · exact hne h
          · exact hst.2 h
  have key := crawlLoop_inv net join (mDomain base) base.scheme maxDepth maxPages
    (fun st => urlStr base ∈ st.visited ∧ urlStr base ∉ st.found)
    (fun u d rest st hst _ _ _ =>
      crawlStep_pres net join (mDomain base) base.scheme _ hpres u d
        { st with queue := rest } hst)
    fuel ⟨[], [urlStr base], [(base, 0)]⟩
    ⟨List.mem_singleton_self _, List.not_mem_nil _⟩
  obtain ⟨st2, ⟨_, h2⟩, heq⟩ := key
  rw [heq]
  exact h2

theorem crawl_seed_not_returned_witness :
    urlStr seedEcom ∉ crawl mParse netOneLink mJoin "http://e.com/" 4 1000 9 :=
  crawl_seed_not_returned mParse netOneLink mJoin "http://e.com/" 4 1000 9 seedEcom
    (by decide)

theorem domainRejects_false {jd bd : Option String} (h : domainRejects jd bd = false) :
    ∀ du db, jd = some du → bd = some db → du = db := by
  intro du db h1 h2
  subst h1
  subst h2
  unfold domainRejects at h
  simpa using h

/-- C4 (amended): every URL the crawler returns was produced from a resolved
link that passed the scheme check — its scheme equals the seed's — and the
domain check as the code implements it: whenever both the link and the seed
have a named domain, the two domains are equal.  A link whose host is not a
named domain (an IP address), or a crawl whose seed has none, bypasses the
domain comparison entirely, so strict same-origin as claimed does not hold
(see the counterexample). -/
theorem crawl_same_origin (parse : String → Option MUrl)
    (net : String → Option (String × String)) (join : MUrl → String → Option MUrl)
    (seedStr : String) (maxDepth maxPages fuel : Nat) (base : MUrl)
    (hp : parse seedStr = some base) :
    ∀ s ∈ crawl parse net join seedStr maxDepth maxPages fuel,
      ∃ u : MUrl, urlStr u = s ∧ u.scheme = base.scheme ∧
        ∀ du db, mDomain u = some du → mDomain base = some db → du = db := by
  unfold crawl
  rw [hp]
  dsimp only
  have hpres : ∀ pageUrl depth st href,
      (∀ s ∈ st.found, ∃ u : MUrl, urlStr u = s ∧ u.scheme = base.scheme ∧
        ∀ du db, mDomain u = some du → mDomain base = some db → du = db) →
      ∀ s ∈ (processHref join (mDomain base) base.scheme pageUrl depth st href).found,
        ∃ u : MUrl, urlStr u = s ∧ u.scheme = base.scheme ∧
          ∀ du db, mDomain u = some du → mDomain base = some db → du = db := by
    intro pageUrl depth st href hst
    rcases processHref_found_cases join (mDomain base) base.scheme pageUrl depth st href with
      heq | ⟨joined, _, hsch, hdom, _, hcase⟩
    · rw [heq]; exact hst
    · rcases hcase with ⟨_, heq⟩ | ⟨_, heq⟩
      · rw [heq]; exact hst
      · rw [heq]
        intro s hs
        dsimp only at hs
        by_cases hf2 : urlStr joined ∈ st.found
        · rw [if_pos hf2] at hs
          exact hst s hs
        · rw [if_neg hf2] at hs
          rcases List.mem_cons.mp hs with h | h
          · exact ⟨joined, h.symm, hsch, domainRejects_false hdom⟩
          · exact hst s h
  have key := crawlLoop_inv net join (mDomain base) base.scheme maxDepth maxPages
    (fun st => ∀ s ∈ st.found, ∃ u : MUrl, urlStr u = s ∧ u.scheme = base.scheme ∧
      ∀ du db, mDomain u = some du → mDomain base = some db → du = db)
    (fun u d rest st hst _ _ _ =>
      crawlStep_pres net join (mDomain base) base.scheme _ hpres u d
        { st with queue := rest } hst)
    fuel ⟨[], [urlStr base], [(base, 0)]⟩
    (fun s hs => absurd hs (List.not_mem_nil s))
  obtain ⟨st2, h2, heq⟩ := key
  rw [heq]
  exact h2

theorem crawl_same_origin_witness :
    ∃ u : MUrl, urlStr u = "http://1.2.3.4/x" ∧ u.scheme = seedEcom.scheme ∧
      ∀ du db, mDomain u = some du → mDomain seedEcom = some db → du = db :=
  crawl_same_origin mParse netIpLink mJoin "http://e.com/" 4 1000 9 seedEcom (by decide)
    "http://1.2.3.4/x" (by decide)

/-- C4 counterexample: with seed `http://e.com/` and a page whose only link
is `http://1.2.3.4/x`, that link resolves to `ipUrl`, whose scheme matches
the seed but whose domain — `none`, an IP host — is not the seed's domain
`some "e.com"`; it is nevertheless returned by the crawl, so the crawler can
return a URL outside the seed's domain. -/
theorem crawl_origin_cex :
    urlStr ipUrl ∈ crawl mParse netIpLink mJoin "http://e.com/" 4 1000 9 ∧
    mJoin seedEcom "http://1.2.3.4/x" = some ipUrl ∧
    mDomain ipUrl ≠ mDomain seedEcom ∧
    ipUrl.scheme = seedEcom.scheme := by
  refine ⟨by decide, by decide, by decide, by decide⟩

/-- C5 (amended): the static-asset filter tests the full serialized URL
string, so no string the crawler returns ends with one of the fixed
extensions.  The claim as stated — that no returned URL has a *path* ending
in one of them — fails, because a query string (or fragment) after the path
defeats the whole-string test: see the counterexample. -/
theorem crawl_static_filter (parse : String → Option MUrl)
    (net : String → Option (String × String)) (join : MUrl → String → Option MUrl)
    (seedStr : String) (maxDepth maxPages fuel : Nat) :
    ∀ s ∈ crawl parse net join seedStr maxDepth maxPages fuel, isStaticAsset s = false := by
  unfold crawl
  cases hp : parse seedStr with
  | none => intro s hs; exact absurd hs (List.not_mem_nil s)
  | some base =>
    dsimp only
    have hpres : ∀ pageUrl depth st href,
        (∀ s ∈ st.found, isStaticAsset s = false) →
        ∀ s ∈ (processHref join (mDomain base) base.scheme pageUrl depth st href).found,
          isStaticAsset s = false := by
      intro pageUrl depth st href hst
      rcases processHref_found_cases join (mDomain base) base.scheme pageUrl depth st href with
        heq | ⟨joined, _, _, _, _, hcase⟩
      · rw [heq]; exact hst
      · rcases hcase with ⟨_, heq⟩ | ⟨hstat, heq⟩
        · rw [heq]; exact hst
        · rw [heq]
          intro s hs
          dsimp only at hs
          by_cases hf2 : urlStr joined ∈ st.found
          · rw [if_pos hf2] at hs
            exact hst s hs
          · rw [if_neg hf2] at hs
            rcases List.mem_cons.mp hs with h | h
            · rw [h]; exact hstat
            · exact hst s h
    have key := crawlLoop_inv net join (mDomain base) base.scheme maxDepth maxPages
      (fun st => ∀ s ∈ st.found, isStaticAsset s = false)
      (fun u d rest st hst _ _ _ =>
        crawlStep_pres net join (mDomain base) base.scheme _ hpres u d
          { st with queue := rest } hst)
      fuel ⟨[], [urlStr base], [(base, 0)]⟩
      (fun s hs => absurd hs (List.not_mem_nil s))
    obtain ⟨st2, h2, heq⟩ := key
    rw [heq]
    exact h2

theorem crawl_static_filter_witness :
    isStaticAsset "http://e.com/a" = false :=
  crawl_static_filter mParse netOneLink mJoin "http://e.com/" 4 1000 9
    "http://e.com/a" (by decide)

/-- C5 counterexample: the href `/img.jpg?v=1` resolves (from seed
`http://e.com/`) to `jpgUrl`, whose path `/img.jpg` ends with `.jpg`, yet
its serialization `http://e.com/img.jpg?v=1` does not, so the whole-string
test keeps it: it is enqueued and returned, contradicting the claim that a
link whose path ends with a static extension is never returned. -/
theorem crawl_static_cex :
    urlStr jpgUrl ∈ crawl mParse netJpgLink mJoin "http://e.com/" 4 1000 9 ∧
    mJoin seedEcom "/img.jpg?v=1" = some jpgUrl ∧
    sEnds jpgUrl.path ".jpg" = true := by
  refine ⟨by decide, by decide, by decide⟩

theorem processHref_found_len (join : MUrl → String → Option MUrl) (bd : Option String)
    (bs : String) (pageUrl : MUrl) (depth : Nat) (st : CrawlState) (href : String) :
    (processHref join bd bs pageUrl depth st href).found.length ≤ st.found.length + 1 := by
  rcases processHref_found_cases join bd bs pageUrl depth st href with
    heq | ⟨joined, _, _, _, _, hcase⟩
  · rw [heq]; omega
  · rcases hcase with ⟨_, heq⟩ | ⟨_, heq⟩
    · rw [heq]; dsimp only; omega
    · rw [heq]
      dsimp only
      split
      · omega
      · rw [List.length_cons]

theorem foldl_found_len (f : CrawlState → String → CrawlState)
    (hf : ∀ st a, (f st a).found.length ≤ st.found.length + 1) (l : List String) :
    ∀ st : CrawlState, (l.foldl f st).found.length ≤ st.found.length + l.length := by
  induction l with
  | nil => intro st; simp
  | cons a l ih =>
    intro st
    have h1 := ih (f st a)
    have h2 := hf st a
    have h3 : ((a :: l).foldl f st) = l.foldl f (f st a) := rfl
    rw [h3, List.length_cons]
    omega

/-- C2 (amended): the page budget is checked only at the start of each
iteration, so within one processed page `found` can grow past it; what holds
is that a page is fetched only while `found` is strictly below `max_pages`,
and hence the returned set has at most `max_pages + B` URLs whenever every
fetched page yields at most `B` extracted hrefs.  The claim's bound by
`max_pages` alone fails: see the counterexample. -/
theorem crawl_budget_bound (parse : String → Option MUrl)
    (net : String → Option (String × String)) (join : MUrl → String → Option MUrl)
    (seedStr : String) (maxDepth maxPages fuel B : Nat)
    (hB : ∀ s ct body, net s = some (ct, body) → (extractHrefs body).length ≤ B) :
    (crawl parse net join seedStr maxDepth maxPages fuel).length ≤ maxPages + B := by
  unfold crawl
  cases hp : parse seedStr with
  | none => simp
  | some base =>
    dsimp only
    have key := crawlLoop_inv net join (mDomain base) base.scheme maxDepth maxPages
      (fun st => st.found.length ≤ maxPages + B) ?hstep fuel
      ⟨[], [urlStr base], [(base, 0)]⟩ (by simp)
    · obtain ⟨st2, h2, heq⟩ := key
      rw [heq]
      exact h2
    case hstep =>
      intro u d rest st _ _ _ hlen
      unfold crawlStep
      cases hnet : net (urlStr u) with
      | none =>
        show st.found.length ≤ maxPages + B
        omega
      | some cb =>
        obtain ⟨ct, body⟩ := cb
        dsimp only
        by_cases hct : sStarts ct "text/html" = true
        · rw [if_pos hct]
          have h1 := foldl_found_len (processHref join (mDomain base) base.scheme u d)
            (fun st2 a => processHref_found_len join (mDomain base) base.scheme u d st2 a)
            (extractHrefs body) { st with queue := rest }
          have h2 := hB (urlStr u) ct body hnet
          have h3 : ({ st with queue := rest } : CrawlState).found = st.found := rfl
          rw [h3] at h1
          omega
        · rw [if_neg hct]
          show st.found.length ≤ maxPages + B
          omega

theorem crawl_budget_bound_witness :
    (crawl mParse netTwoLinks mJoin "http://e.com/" 4 1 9).length ≤ 1 + 2 :=
  crawl_budget_bound mParse netTwoLinks mJoin "http://e.com/" 4 1 9 2 (by
    intro s ct body h
    unfold netTwoLinks at h
    split at h
    · injection h with h2
      have hb : body = bodyTwoLinks := (congrArg Prod.snd h2).symm
      subst hb
      decide
    · exact Option.noConfusion h)

/-- C2 counterexample: with page budget `max_pages = 1` and a seed page
carrying two links, both links are inserted into `found` during the seed's
iteration — the budget is only consulted at the next iteration start — so
the crawl returns two distinct URLs, exceeding the budget. -/
theorem crawl_budget_cex :
    ¬ (crawl mParse netTwoLinks mJoin "http://e.com/" 4 1 9).length ≤ 1 := by
  decide

/-- C3 (amended): every URL the crawler returns is at most `max_depth + 1`
link hops from the seed.  Pages are fetched only while their popped depth is
at most `max_depth`, and the surviving links of a page popped at depth `d`
are added to `found` at depth `d + 1` — so links of a page at depth
`max_depth` enter `found` at `max_depth + 1` even though they are never
fetched themselves.  The `max_depth` bound as claimed fails: see the
counterexample. -/
theorem crawl_depth_bound (parse : String → Option MUrl)
    (net : String → Option (String × String)) (join : MUrl → String → Option MUrl)
    (seedStr : String) (maxDepth maxPages fuel : Nat) (base : MUrl)
    (hp : parse seedStr = some base) :
    ∀ s ∈ crawl parse net join seedStr maxDepth maxPages fuel,
      ∃ u d, urlStr u = s ∧ Reach net join base u d ∧ d ≤ maxDepth + 1 := by
  unfold crawl
  rw [hp]
  dsimp only
  have key := crawlLoop_inv net join (mDomain base) base.scheme maxDepth maxPages
    (fun st =>
      (∀ p ∈ st.queue, Reach net join base p.1 p.2 ∧ p.2 ≤ maxDepth + 1) ∧
      (∀ s ∈ st.found, ∃ u d, urlStr u = s ∧ Reach net join base u d ∧ d ≤ maxDepth + 1))
    ?hstep fuel ⟨[], [urlStr base], [(base, 0)]⟩ ?hinit
  · obtain ⟨st2, ⟨_, h2⟩, heq⟩ := key
    rw [heq]
    exact h2
  case hinit =>
    constructor
    · intro p hp2
      rw [List.mem_singleton] at hp2
      subst hp2
      exact ⟨Reach.seed, by omega⟩
    · intro s hs
      exact absurd hs (List.not_mem_nil s)
  case hstep =>
    intro u d rest st hst hq hd _
    have hu : Reach net join base u d :=
      (hst.1 (u, d) (by rw [hq]; exact List.mem_cons_self _ _)).1
    have hpop :
        (∀ p ∈ rest, Reach net join base p.1 p.2 ∧ p.2 ≤ maxDepth + 1) ∧
        (∀ s ∈ st.found, ∃ u2 d2, urlStr u2 = s ∧ Reach net join base u2 d2 ∧
          d2 ≤ maxDepth + 1) :=
      ⟨fun p hp2 => hst.1 p (by rw [hq]; exact List.mem_cons_of_mem _ hp2), hst.2⟩
    unfold crawlStep
    cases hnet : net (urlStr u) with
    | none => exact hpop
    | some cb =>
      obtain ⟨ct, body⟩ := cb
      dsimp only
      by_cases hct : sStarts ct "text/html" = true
      · rw [if_pos hct]
        refine foldl_inv (processHref join (mDomain base) base.scheme u d)
          (fun st3 =>
            (∀ p ∈ st3.queue, Reach net join base p.1 p.2 ∧ p.2 ≤ maxDepth + 1) ∧
            (∀ s ∈ st3.found, ∃ u2 d2, urlStr u2 = s ∧ Reach net join base u2 d2 ∧
              d2 ≤ maxDepth + 1))
          (extractHrefs body) ?_ { st with queue := rest } hpop
        intro b a ha hb
        rcases processHref_found_cases join (mDomain base) base.scheme u d b a with
          heq | ⟨joined, hj, _, _, _, hcase⟩
        · rw [heq]; exact hb
        · have hreach : Reach net join base joined (d + 1) :=
            Reach.step hu hnet hct ha hj
          rcases hcase with ⟨_, heq⟩ | ⟨_, heq⟩
          · rw [heq]
            exact hb
          · rw [heq]
            constructor
            · intro p hp2
              dsimp only at hp2
              rcases List.mem_append.mp hp2 with h | h
              · exact hb.1 p h
              · rw [List.mem_singleton] at h
                subst h
                exact ⟨hreach, by omega⟩
            · intro s hs
              dsimp only at hs
              by_cases hf2 : urlStr joined ∈ b.found
              · rw [if_pos hf2] at hs
                exact hb.2 s hs
              · rw [if_neg hf2] at hs
                rcases List.mem_cons.mp hs with h | h
                · exact ⟨joined, d + 1, h.symm, hreach, by omega⟩
                · exact hb.2 s h
      · rw [if_neg hct]
        exact hpop

theorem crawl_depth_bound_witness :
    ∃ u d, urlStr u = "http://e.com/a" ∧ Reach netOneLink mJoin seedEcom u d ∧ d ≤ 4 + 1 :=
  crawl_depth_bound mParse netOneLink mJoin "http://e.com/" 4 1000 9 seedEcom (by decide)
    "http://e.com/a" (by decide)

theorem reach_zero {net : String → Option (String × String)}
    {join : MUrl → String → Option MUrl} {base u : MUrl}
    (h : Reach net join base u 0) : u = base := by
  cases h
  rfl

/-- C3 counterexample: with `max_depth = 0` the crawl of the one-link
scenario returns `http://e.com/a`, yet the only URL reachable in at most `0`
hops is the seed itself (serializing to `http://e.com/`), so the returned
set contains a URL more than `max_depth` hops from the seed. -/
theorem crawl_depth_cex :
    ¬ (∀ s ∈ crawl mParse netOneLink mJoin "http://e.com/" 0 1000 9,
        ∃ u d, urlStr u = s ∧ Reach netOneLink mJoin seedEcom u d ∧ d ≤ 0) := by
  intro h
  obtain ⟨u, d, hu, hr, hd⟩ := h "http://e.com/a" (by decide)
  have hd0 : d = 0 := Nat.le_zero.mp hd
  subst hd0
  rw [reach_zero hr] at hu
  exact absurd hu (by decide)
